import Mathlib

/-!
# Verification of the CSV subset-sum optimizer

Shallow embedding of `src/server/src/services/csvOptimizer.ts` (class
`CSVOptimizer`).  Numeric values are modelled as `Int`: the optimizer only
adds and compares values, so the embedding is faithful for every integral
input, and all of the stated invariants (positive target, positive
candidates) are expressed as hypotheses on `Int`.

* `CSVRow`, `OptimizationResult`, `SubsetSum` mirror the TypeScript
  interfaces in `src/server/src/types/index.ts` (the anonymous
  `{sum, subset}` records of the optimizer are named `SubsetSum`).
* `maskSubset` / `generateAllSubsetSums` mirror `generateAllSubsetSums`:
  for each bitmask below `2 ^ n` the inner `for i` loop pushes
  `numbers[i]` whenever bit `i` of the mask is set, accumulating the sum
  of exactly the pushed values.
* `bsLoop` / `findBestSum` mirror `findBestSum`'s binary search; `bsLoop`
  returns `none` exactly when the source would read out of bounds, and
  that case is proved unreachable.
* `combineStep` / `findOptimalSubset` mirror `findOptimalSubset`'s
  running-best loop over the left sums, and `optimizeRow`,
  `optimizeAllRows`, `validateRow` mirror the same-named methods.
-/

open List

structure CSVRow where
  bigNumber : Int
  smallNumbers : List Int
deriving Repr, DecidableEq

structure OptimizationResult where
  selectedNumbers : List Int
  sum : Int
  originalRow : CSVRow
deriving Repr, DecidableEq

structure SubsetSum where
  sum : Int
  subset : List Int
deriving Repr, DecidableEq

/-- The subset pushed by the inner loop of `generateAllSubsetSums` for a
given bitmask, written as the literal fold over `i = 0, …, n-1`:
`if (mask & (1 << i)) { subset.push(numbers[i]) }`. -/
def maskSubsetLoop (numbers : List Int) (mask : Nat) : List Int :=
  (List.range numbers.length).foldl
    (fun acc i => if mask.testBit i then acc ++ [numbers.getD i 0] else acc) []

/-- The same subset, in structurally recursive form: bit `i` of `mask`
selects element `i`, i.e. bit `0` selects the head and the remaining bits
(`mask / 2`) select from the tail.  Proved equal to `maskSubsetLoop`. -/
def maskSubset : List Int → Nat → List Int
  | [], _ => []
  | x :: xs, mask => (if mask.testBit 0 then [x] else []) ++ maskSubset xs (mask / 2)

/-- `generateAllSubsetSums` of the source: one `{sum, subset}` record per
bitmask `0 ≤ mask < 2 ^ n`, in mask order; the loop accumulates `sum` as
the sum of exactly the values it pushes into `subset`. -/
def generateAllSubsetSums (numbers : List Int) : List SubsetSum :=
  (List.range (2 ^ numbers.length)).map
    (fun mask => { sum := (maskSubset numbers mask).sum, subset := maskSubset numbers mask })

/-- The `while (left <= right)` binary-search loop of `findBestSum`,
with `left`/`bestIndex` as the source's non-negative indices and `right`
as an `Int` (the source lets `right` reach `-1`).  The loop is written
with an explicit iteration budget (`fuel`) so that it is structurally
recursive; `none` models either an out-of-bounds read of
`sortedSums[mid]` or fuel exhaustion (non-termination), and both are
proved unreachable from the entry state with the entry fuel. -/
def bsLoop (sortedSums : List SubsetSum) (target : Int) :
    Nat → Nat → Int → Nat → Option Nat
  | 0, _, _, _ => none
  | fuel + 1, left, right, bestIndex =>
    if (left : Int) ≤ right then
      let mid : Int := ((left : Int) + right) / 2
      match sortedSums[mid.toNat]? with
      | none => none
      | some p =>
        if p.sum ≤ target then
          bsLoop sortedSums target fuel (mid.toNat + 1) right mid.toNat
        else
          bsLoop sortedSums target fuel left (mid - 1) bestIndex
    else
      some bestIndex

/-- `findBestSum` of the source: empty input returns the zero pair,
otherwise the binary search runs from `left = 0`, `right = length - 1`,
`bestIndex = 0` and the entry at the final index is returned.  The
interval `[left, right]` starts with `length` elements and shrinks every
iteration, so `length + 1` fuel is enough; the `none` fallback
corresponds to the (unreachable) failure cases of `bsLoop`. -/
def findBestSum (sortedSums : List SubsetSum) (target : Int) : SubsetSum :=
  if sortedSums.length = 0 then ⟨0, []⟩
  else
    match bsLoop sortedSums target (sortedSums.length + 1) 0
        ((sortedSums.length : Int) - 1) 0 with
    | some idx => sortedSums.getD idx ⟨0, []⟩
    | none => ⟨0, []⟩

/-- The body of `findOptimalSubset`'s `for (const leftSum of leftSums)`
loop, acting on the running state `(bestSum, bestCombination)`:
skip left sums above the target, otherwise query `findBestSum` for the
best complementary right sum and update the state only on a strictly
greater feasible total. -/
def combineStep (rightSorted : List SubsetSum) (target : Int)
    (st : Int × List Int) (leftSum : SubsetSum) : Int × List Int :=
  if leftSum.sum > target then st
  else
    let bestRightSum := findBestSum rightSorted (target - leftSum.sum)
    let totalSum := leftSum.sum + bestRightSum.sum
    if totalSum ≤ target ∧ totalSum > st.1 then (totalSum, leftSum.subset ++ bestRightSum.subset)
    else st

/-- Ascending-by-`sum` order used to sort the right half's subset sums,
the source's comparator `(a, b) => a.sum - b.sum`. -/
def bySum (a b : SubsetSum) : Prop := a.sum ≤ b.sum

instance : DecidableRel bySum := fun a b => Int.decLe a.sum b.sum

instance : IsTotal SubsetSum bySum := ⟨fun a b => le_total a.sum b.sum⟩

instance : IsTrans SubsetSum bySum := ⟨fun _ _ _ h1 h2 => le_trans h1 h2⟩

/-- `findOptimalSubset` of the source: edge cases for zero and one
candidates, then the meet-in-the-middle search — split at `⌊n/2⌋`,
enumerate both halves, sort the right sums ascending by sum, fold the
combination loop from `bestSum = 0`, `bestCombination = []`, and sort
the winning combination ascending.  `Array.prototype.sort` is stable,
and a stable sort's output is uniquely determined by the comparator and
the input order, so it is modelled by the stable `List.insertionSort`. -/
def findOptimalSubset (numbers : List Int) (target : Int) : List Int :=
  match numbers with
  | [] => []
  | [x] => if x ≤ target then [x] else []
  | _ :: _ :: _ =>
    let mid := numbers.length / 2
    let left := numbers.take mid
    let right := numbers.drop mid
    let leftSums := generateAllSubsetSums left
    let rightSums := (generateAllSubsetSums right).insertionSort bySum
    let best := leftSums.foldl (combineStep rightSums target) (0, [])
    best.2.insertionSort (fun a b => a ≤ b)

/-- `optimizeRow` of the source: empty candidate lists short-circuit to
the empty result, otherwise `findOptimalSubset` runs and the result's
`sum` is recomputed by the source's `reduce((sum, num) => sum + num, 0)`. -/
def optimizeRow (row : CSVRow) : OptimizationResult :=
  if row.smallNumbers.length = 0 then
    { selectedNumbers := [], sum := 0, originalRow := row }
  else
    let result := findOptimalSubset row.smallNumbers row.bigNumber
    { selectedNumbers := result
      sum := result.foldl (fun sum num => sum + num) 0
      originalRow := row }

/-- `optimizeAllRows` of the source: `rows.map(row => this.optimizeRow(row))`. -/
def optimizeAllRows (rows : List CSVRow) : List OptimizationResult :=
  rows.map (fun row => optimizeRow row)

/-- `validateRow` of the source.  The two `typeof`/`Array.isArray` guards
are vacuous in the typed embedding; the value-level checks remain. -/
def validateRow (row : CSVRow) : Bool :=
  decide (row.bigNumber > 0) &&
  decide (row.smallNumbers.length ≤ 12) &&
  row.smallNumbers.all (fun num => decide (num > 0))

/-! ## Basic facts about `optimizeRow`, `optimizeAllRows`, `validateRow` -/

-- Both branches of `optimizeRow` put the unmodified input row into `originalRow`.
theorem optimizeRow_originalRow (row : CSVRow) : (optimizeRow row).originalRow = row := by
  unfold optimizeRow
  split <;> rfl

/-- C10: `optimizeRow` does not mutate its input: the row's `bigNumber` and
`smallNumbers` are unchanged after the call and the returned result's
`originalRow` field is exactly the input row.  (The embedding is a pure
function of the row's value, matching the source, which only sorts freshly
constructed arrays; the observable frame condition is proved here.) -/
theorem optimizeRow_frame (row : CSVRow) :
    (optimizeRow row).originalRow = row ∧
    (optimizeRow row).originalRow.bigNumber = row.bigNumber ∧
    (optimizeRow row).originalRow.smallNumbers = row.smallNumbers := by
  refine ⟨optimizeRow_originalRow row, ?_, ?_⟩ <;> rw [optimizeRow_originalRow]

/-- C5: `optimizeAllRows` returns one result per input row, in order: the
output has the input's length, its `i`-th element is `optimizeRow` of the
`i`-th input row, and each output element's `originalRow` is the
corresponding input row. -/
theorem optimizeAllRows_spec (rows : List CSVRow) :
    (optimizeAllRows rows).length = rows.length ∧
    (∀ i : Nat, (optimizeAllRows rows)[i]? = (rows[i]?).map optimizeRow) ∧
    (∀ i : Nat, ((optimizeAllRows rows)[i]?).map OptimizationResult.originalRow = rows[i]?) := by
  refine ⟨by simp [optimizeAllRows], fun i => by simp [optimizeAllRows], fun i => ?_⟩
  rw [show optimizeAllRows rows = rows.map (fun row => optimizeRow row) from rfl,
    List.getElem?_map]
  cases rows[i]? with
  | none => rfl
  | some r => simp [optimizeRow_originalRow]

-- `validateRow` decides exactly the row invariants.
theorem validateRow_iff (row : CSVRow) :
    validateRow row = true ↔
      (0 < row.bigNumber ∧ row.smallNumbers.length ≤ 12 ∧
        ∀ v ∈ row.smallNumbers, 0 < v) := by
  simp [validateRow, List.all_eq_true, and_assoc]

/-! ## The subset enumeration -/

-- Folding the conditional push over a list of indices filters and maps.
theorem foldl_filter_push (p : Nat → Bool) (f : Nat → Int) (l : List Nat) (acc : List Int) :
    l.foldl (fun acc i => if p i then acc ++ [f i] else acc) acc
      = acc ++ (l.filter p).map f := by
  induction l generalizing acc with
  | nil => simp
  | cons a l ih =>
    by_cases h : p a
    · simp [List.foldl_cons, h, ih, List.filter_cons]
    · simp [List.foldl_cons, h, ih, List.filter_cons]

-- The literal loop form, re-expressed as filter-then-index.
theorem maskSubsetLoop_eq (numbers : List Int) (mask : Nat) :
    maskSubsetLoop numbers mask
      = ((List.range numbers.length).filter (fun i => mask.testBit i)).map
          (fun i => numbers.getD i 0) := by
  simpa [maskSubsetLoop] using
    foldl_filter_push (fun i => mask.testBit i) (fun i => numbers.getD i 0)
      (List.range numbers.length) []

-- The recursive form agrees with the loop form.
theorem maskSubset_eq_maskSubsetLoop (numbers : List Int) (mask : Nat) :
    maskSubset numbers mask = maskSubsetLoop numbers mask := by
  rw [maskSubsetLoop_eq]
  induction numbers generalizing mask with
  | nil => simp [maskSubset]
  | cons x xs ih =>
    rw [maskSubset, List.length_cons, List.range_succ_eq_map, List.filter_cons]
    have h1 : ((fun i => mask.testBit i) ∘ Nat.succ) = fun i => (mask / 2).testBit i := by
      funext i
      exact Nat.testBit_succ mask i
    have h2 : ((fun i : Nat => (x :: xs).getD i 0) ∘ Nat.succ) = fun i : Nat => xs.getD i 0 := by
      funext i
      rfl
    by_cases h : mask.testBit 0
    · simp only [h, if_pos, List.map_cons, List.getD_cons_zero, List.filter_map,
        List.map_map, h1, h2, ih]
      simp
    · simp only [h, Bool.false_eq_true, if_neg, List.filter_map, List.map_map, h1, h2, ih]
      simp

theorem maskSubset_sublist (numbers : List Int) (mask : Nat) :
    maskSubset numbers mask <+ numbers := by
  induction numbers generalizing mask with
  | nil => simp [maskSubset]
  | cons x xs ih =>
    rw [maskSubset]
    by_cases h : mask.testBit 0
    · simpa [h] using List.Sublist.cons₂ x (ih (mask / 2))
    · simpa [h] using List.Sublist.cons x (ih (mask / 2))

theorem maskSubset_zero (numbers : List Int) : maskSubset numbers 0 = [] := by
  induction numbers with
  | nil => rfl
  | cons x xs ih => simp [maskSubset, ih]

-- Completeness: every sublist (index-based subset) of `numbers` arises
-- from some mask below `2 ^ length`.
theorem exists_mask_of_sublist :
    ∀ (numbers S : List Int), S <+ numbers →
      ∃ mask, mask < 2 ^ numbers.length ∧ maskSubset numbers mask = S := by
  intro numbers
  induction numbers with
  | nil =>
    intro S h
    rw [List.sublist_nil] at h
    exact ⟨0, by simp, by simp [h, maskSubset]⟩
  | cons x xs ih =>
    intro S h
    cases h with
    | cons _ h =>
      obtain ⟨m, hm, hms⟩ := ih _ h
      have hpow : 2 ^ (xs.length + 1) = 2 ^ xs.length * 2 := pow_succ 2 xs.length
      refine ⟨2 * m, by rw [List.length_cons, hpow]; omega, ?_⟩
      have h1 : (2 * m).testBit 0 = false := by
        simp [Nat.testBit_zero]
      have h2 : 2 * m / 2 = m := by omega
      rw [maskSubset, h1, h2, hms]
      simp
    | cons₂ _ h =>
      obtain ⟨m, hm, hms⟩ := ih _ h
      have hpow : 2 ^ (xs.length + 1) = 2 ^ xs.length * 2 := pow_succ 2 xs.length
      refine ⟨2 * m + 1, by rw [List.length_cons, hpow]; omega, ?_⟩
      have h1 : (2 * m + 1).testBit 0 = true := by
        simp [Nat.testBit_zero]
        omega
      have h2 : (2 * m + 1) / 2 = m := by omega
      rw [maskSubset, h1, h2, hms]
      simp

theorem mem_generateAllSubsetSums {numbers : List Int} {e : SubsetSum} :
    e ∈ generateAllSubsetSums numbers ↔
      ∃ mask, mask < 2 ^ numbers.length ∧
        e = ⟨(maskSubset numbers mask).sum, maskSubset numbers mask⟩ := by
  simp only [generateAllSubsetSums, List.mem_map, List.mem_range]
  constructor
  · rintro ⟨mask, hm, rfl⟩
    exact ⟨mask, hm, rfl⟩
  · rintro ⟨mask, hm, rfl⟩
    exact ⟨mask, hm, rfl⟩

theorem zero_mem_generateAllSubsetSums (numbers : List Int) :
    (⟨0, []⟩ : SubsetSum) ∈ generateAllSubsetSums numbers := by
  rw [mem_generateAllSubsetSums]
  exact ⟨0, Nat.two_pow_pos numbers.length, by simp [maskSubset_zero]⟩

theorem generateAllSubsetSums_sound {numbers : List Int} {e : SubsetSum}
    (he : e ∈ generateAllSubsetSums numbers) :
    e.sum = e.subset.sum ∧ e.subset <+ numbers := by
  rw [mem_generateAllSubsetSums] at he
  obtain ⟨mask, -, rfl⟩ := he
  exact ⟨rfl, maskSubset_sublist numbers mask⟩

/-! ## The binary search -/

-- In a list sorted ascending by sum, sums are monotone in the index.
theorem pairwise_getD_le {l : List SubsetSum} (hs : l.Pairwise bySum)
    {i j : Nat} (hij : i ≤ j) (hj : j < l.length) :
    (l.getD i ⟨0, []⟩).sum ≤ (l.getD j ⟨0, []⟩).sum := by
  rcases Nat.eq_or_lt_of_le hij with rfl | hlt
  · exact le_refl _
  · have hi : i < l.length := lt_trans hlt hj
    have hr := List.pairwise_iff_getElem.mp hs i j hi hj hlt
    simp only [List.getD_eq_getElem?_getD, List.getElem?_eq_getElem hi,
      List.getElem?_eq_getElem hj, Option.getD_some]
    exact hr

-- Invariant-carrying specification of the binary-search loop: from a
-- state where everything strictly left of `left` fits under `target`,
-- everything strictly right of `right` exceeds it, and `bestIndex`
-- records the last index seen to fit (0 if none yet), the loop returns
-- a valid index that is either the largest fitting index, or index 0
-- when no entry fits.
theorem bsLoop_spec (l : List SubsetSum) (t : Int) (hs : l.Pairwise bySum) :
    ∀ (fuel left : Nat) (right : Int) (best : Nat),
      (right + 1 - left).toNat < fuel →
      right ≤ (l.length : Int) - 1 →
      (left : Int) ≤ right + 1 →
      (∀ i : Nat, i < left → (l.getD i ⟨0, []⟩).sum ≤ t) →
      (∀ i : Nat, right < (i : Int) → i < l.length → t < (l.getD i ⟨0, []⟩).sum) →
      ((left = 0 ∧ best = 0) ∨ (best + 1 = left ∧ (l.getD best ⟨0, []⟩).sum ≤ t)) →
      1 ≤ l.length →
      ∃ idx, bsLoop l t fuel left right best = some idx ∧ idx < l.length ∧
        (((∀ i : Nat, i < l.length → t < (l.getD i ⟨0, []⟩).sum) ∧ idx = 0) ∨
          ((l.getD idx ⟨0, []⟩).sum ≤ t ∧
            ∀ i : Nat, i < l.length → (l.getD i ⟨0, []⟩).sum ≤ t → i ≤ idx)) := by
  intro fuel
  induction fuel with
  | zero =>
    intro left right best hfuel h1 h2 h3 h4 h5 hlen
    omega
  | succ fuel ih =>
    intro left right best hfuel h1 h2 h3 h4 h5 hlen
    rw [bsLoop]
    by_cases hlr : (left : Int) ≤ right
    · rw [if_pos hlr]
      have hmid_lb : (left : Int) ≤ ((left : Int) + right) / 2 := by omega
      have hmid_ub : ((left : Int) + right) / 2 ≤ right := by omega
      have hmid_lt : (((left : Int) + right) / 2).toNat < l.length := by omega
      have hb : l[(((left : Int) + right) / 2).toNat]? =
          some (l.getD (((left : Int) + right) / 2).toNat ⟨0, []⟩) := by
        simp [List.getD_eq_getElem?_getD, List.getElem?_eq_getElem hmid_lt]
      simp only [hb]
      by_cases hpt : (l.getD (((left : Int) + right) / 2).toNat ⟨0, []⟩).sum ≤ t
      · rw [if_pos hpt]
        apply ih ((((left : Int) + right) / 2).toNat + 1) right
          (((left : Int) + right) / 2).toNat
        · omega
        · omega
        · omega
        · intro i hi
          have : i ≤ (((left : Int) + right) / 2).toNat := by omega
          exact le_trans (pairwise_getD_le hs this hmid_lt) hpt
        · exact h4
        · exact Or.inr ⟨rfl, hpt⟩
        · exact hlen
      · rw [if_neg hpt]
        apply ih left (((left : Int) + right) / 2 - 1) best
        · omega
        · omega
        · omega
        · exact h3
        · intro i hi hilen
          have hmi : (((left : Int) + right) / 2).toNat ≤ i := by omega
          exact lt_of_lt_of_le (lt_of_not_ge hpt) (pairwise_getD_le hs hmi hilen)
        · exact h5
        · exact hlen
    · rw [if_neg hlr]
      rcases h5 with ⟨hl0, hb0⟩ | ⟨hbl, hbt⟩
      · refine ⟨best, rfl, by omega, Or.inl ⟨fun i hi => h4 i (by omega) hi, hb0⟩⟩
      · refine ⟨best, rfl, by omega, Or.inr ⟨hbt, fun i hi hit => ?_⟩⟩
        by_contra hgt
        exact absurd hit (not_le_of_gt (h4 i (by omega) hi))

-- `getD` agrees with `getElem` in range.
theorem getD_eq_getElem_of_lt (l : List SubsetSum) {j : Nat} (hj : j < l.length) :
    l.getD j ⟨0, []⟩ = l[j] := by
  simp [List.getD_eq_getElem?_getD, List.getElem?_eq_getElem hj]

-- Full characterization of `findBestSum` on a list sorted ascending by
-- sum: the empty list yields the zero pair; if some entry fits under the
-- ceiling the result is a fitting entry of maximal sum; if the list is
-- nonempty and nothing fits, the result is the FIRST entry of the list
-- (the source returns `sortedSums[bestIndex]` with `bestIndex` still 0).
theorem findBestSum_spec (l : List SubsetSum) (t : Int) (hs : l.Pairwise bySum) :
    (l = [] → findBestSum l t = ⟨0, []⟩) ∧
    ((∃ p ∈ l, p.sum ≤ t) →
      findBestSum l t ∈ l ∧ (findBestSum l t).sum ≤ t ∧
        ∀ q ∈ l, q.sum ≤ t → q.sum ≤ (findBestSum l t).sum) ∧
    ((l ≠ [] ∧ ∀ p ∈ l, t < p.sum) → findBestSum l t = l.headD ⟨0, []⟩) := by
  rcases eq_or_ne l [] with rfl | hne
  · refine ⟨fun _ => rfl, ?_, ?_⟩
    · rintro ⟨p, hp, -⟩
      exact absurd hp (List.not_mem_nil p)
    · rintro ⟨h, -⟩
      exact absurd rfl h
  · have hlen : 1 ≤ l.length := List.length_pos.mpr hne
    obtain ⟨idx, heq, hidx, hch⟩ := bsLoop_spec l t hs (l.length + 1) 0
      ((l.length : Int) - 1) 0
      (by omega) (by omega) (by omega)
      (fun i hi => absurd hi (Nat.not_lt_zero i))
      (fun i hi hilen => by omega)
      (Or.inl ⟨rfl, rfl⟩) hlen
    have hres : findBestSum l t = l.getD idx ⟨0, []⟩ := by
      rw [findBestSum, if_neg (by omega), heq]
    refine ⟨fun h => absurd h hne, ?_, ?_⟩
    · rintro ⟨p, hp, hpt⟩
      obtain ⟨j, hj, hpj⟩ := List.mem_iff_getElem.mp hp
      rcases hch with ⟨hall, -⟩ | ⟨hle, hmax⟩
      · have hcon := hall j hj
        rw [getD_eq_getElem_of_lt l hj, hpj] at hcon
        exact absurd hpt (not_le_of_gt hcon)
      · refine ⟨?_, ?_, ?_⟩
        · rw [hres, getD_eq_getElem_of_lt l hidx]
          exact List.getElem_mem hidx
        · rw [hres]
          exact hle
        · intro q hq hqt
          obtain ⟨k, hk, hqk⟩ := List.mem_iff_getElem.mp hq
          have hk_le : k ≤ idx := hmax k hk (by rw [getD_eq_getElem_of_lt l hk, hqk]; exact hqt)
          rw [hres, ← hqk, ← getD_eq_getElem_of_lt l hk]
          exact pairwise_getD_le hs hk_le hidx
    · rintro ⟨-, hall⟩
      rcases hch with ⟨-, rfl⟩ | ⟨hle, -⟩
      · rw [hres]
        cases l with
        | nil => exact absurd rfl hne
        | cons a l => rfl
      · have hmem : l.getD idx ⟨0, []⟩ ∈ l := by
          rw [getD_eq_getElem_of_lt l hidx]
          exact List.getElem_mem hidx
        exact absurd hle (not_le_of_gt (hall _ hmem))

/-! ## The combination loop -/

-- One loop step never decreases the running best sum.
theorem combineStep_fst_le (rs : List SubsetSum) (t : Int) (st : Int × List Int) (e : SubsetSum) :
    st.1 ≤ (combineStep rs t st e).1 := by
  by_cases h1 : e.sum > t
  · simp [combineStep, h1]
  · by_cases h2 : e.sum + (findBestSum rs (t - e.sum)).sum ≤ t ∧
        e.sum + (findBestSum rs (t - e.sum)).sum > st.1
    · simp only [combineStep, if_neg h1, if_pos h2]
      exact le_of_lt h2.2
    · simp only [combineStep, if_neg h1, if_neg h2]
      exact le_refl _

-- Hence the whole loop never decreases it.
theorem foldl_combineStep_fst_le (rs : List SubsetSum) (t : Int) :
    ∀ (L : List SubsetSum) (st : Int × List Int),
      st.1 ≤ (L.foldl (combineStep rs t) st).1 := by
  intro L
  induction L with
  | nil => intro st; exact le_refl _
  | cons e L ih =>
    intro st
    exact le_trans (combineStep_fst_le rs t st e) (ih (combineStep rs t st e))

-- A feasible total computed for `e` is a lower bound on the best sum
-- right after `e`'s step.
theorem combineStep_total_le (rs : List SubsetSum) (t : Int) (st : Int × List Int)
    (e : SubsetSum) (h1 : e.sum ≤ t)
    (h2 : e.sum + (findBestSum rs (t - e.sum)).sum ≤ t) :
    e.sum + (findBestSum rs (t - e.sum)).sum ≤ (combineStep rs t st e).1 := by
  by_cases h3 : e.sum + (findBestSum rs (t - e.sum)).sum > st.1
  · simp only [combineStep, if_neg (not_lt.mpr h1), if_pos (And.intro h2 h3)]
    exact le_refl _
  · have hna : ¬(e.sum + (findBestSum rs (t - e.sum)).sum ≤ t ∧
        e.sum + (findBestSum rs (t - e.sum)).sum > st.1) := fun hc => h3 hc.2
    simp only [combineStep, if_neg (not_lt.mpr h1), if_neg hna]
    omega

-- And therefore on the final best sum, whenever `e` occurs in the loop's list.
theorem foldl_combineStep_total_le (rs : List SubsetSum) (t : Int) (L : List SubsetSum)
    (st : Int × List Int) (e : SubsetSum) (he : e ∈ L) (h1 : e.sum ≤ t)
    (h2 : e.sum + (findBestSum rs (t - e.sum)).sum ≤ t) :
    e.sum + (findBestSum rs (t - e.sum)).sum ≤ (L.foldl (combineStep rs t) st).1 := by
  obtain ⟨L1, L2, rfl⟩ := List.append_of_mem he
  rw [List.foldl_append, List.foldl_cons]
  exact le_trans (combineStep_total_le rs t _ e h1 h2) (foldl_combineStep_fst_le rs t L2 _)

-- One loop step preserves the state invariant: the tracked sum is the
-- sum of the tracked combination, it fits under the target, and the
-- combination splits into a sublist of the left half followed by a
-- sublist of the right half.
theorem combineStep_invariant (rs : List SubsetSum) (t : Int) (leftL rightL : List Int)
    (hsort : rs.Pairwise bySum)
    (hmem : ∀ b ∈ rs, b.sum = b.subset.sum ∧ b.subset <+ rightL)
    (hzero : (⟨0, []⟩ : SubsetSum) ∈ rs)
    (st : Int × List Int) (e : SubsetSum)
    (he : e.sum = e.subset.sum ∧ e.subset <+ leftL)
    (hinv : st.1 = st.2.sum ∧ st.1 ≤ t ∧
      ∃ SL SR, SL <+ leftL ∧ SR <+ rightL ∧ st.2 = SL ++ SR) :
    (combineStep rs t st e).1 = (combineStep rs t st e).2.sum ∧
    (combineStep rs t st e).1 ≤ t ∧
    ∃ SL SR, SL <+ leftL ∧ SR <+ rightL ∧ (combineStep rs t st e).2 = SL ++ SR := by
  by_cases h1 : e.sum > t
  · simpa [combineStep, h1] using hinv
  · by_cases h2 : e.sum + (findBestSum rs (t - e.sum)).sum ≤ t ∧
        e.sum + (findBestSum rs (t - e.sum)).sum > st.1
    · have hzq : (0 : Int) ≤ t - e.sum := by omega
      obtain ⟨hbmem, -, -⟩ := (findBestSum_spec rs (t - e.sum) hsort).2.1
        ⟨⟨0, []⟩, hzero, by simpa using hzq⟩
      obtain ⟨hbsum, hbsub⟩ := hmem _ hbmem
      simp only [combineStep, if_neg h1, if_pos h2]
      refine ⟨?_, h2.1, e.subset, (findBestSum rs (t - e.sum)).subset, he.2, hbsub, rfl⟩
      have hap : (e.subset ++ (findBestSum rs (t - e.sum)).subset).sum
          = e.subset.sum + (findBestSum rs (t - e.sum)).subset.sum := List.sum_append
      have he1 := he.1
      omega
    · simp only [combineStep, if_neg h1, if_neg h2]
      exact hinv

-- The invariant holds for the whole loop, starting from `(0, [])`.
theorem foldl_combineStep_invariant (rs : List SubsetSum) (t : Int) (leftL rightL : List Int)
    (hsort : rs.Pairwise bySum)
    (hmem : ∀ b ∈ rs, b.sum = b.subset.sum ∧ b.subset <+ rightL)
    (hzero : (⟨0, []⟩ : SubsetSum) ∈ rs) :
    ∀ (L : List SubsetSum), (∀ e ∈ L, e.sum = e.subset.sum ∧ e.subset <+ leftL) →
      ∀ st : Int × List Int,
        (st.1 = st.2.sum ∧ st.1 ≤ t ∧
          ∃ SL SR, SL <+ leftL ∧ SR <+ rightL ∧ st.2 = SL ++ SR) →
        ((L.foldl (combineStep rs t) st).1 = (L.foldl (combineStep rs t) st).2.sum ∧
          (L.foldl (combineStep rs t) st).1 ≤ t ∧
          ∃ SL SR, SL <+ leftL ∧ SR <+ rightL ∧
            (L.foldl (combineStep rs t) st).2 = SL ++ SR) := by
  intro L
  induction L with
  | nil => intro _ st hinv; exact hinv
  | cons e L ih =>
    intro hL st hinv
    rw [List.foldl_cons]
    exact ih (fun b hb => hL b (List.mem_cons_of_mem e hb)) _
      (combineStep_invariant rs t leftL rightL hsort hmem hzero st e
        (hL e (List.mem_cons_self e L)) hinv)

-- Correctness of the meet-in-the-middle pipeline for an arbitrary split
-- `A ++ B` of the candidate list: the returned selection is sorted, is a
-- sub-permutation of a sublist of `A ++ B` (hence a sub-multiset), fits
-- under the target, and its sum dominates the sum of every fitting
-- sublist of `A ++ B`.
theorem mitm_pipeline_spec (A B : List Int) (target : Int) (result : List Int)
    (hres : result = ((generateAllSubsetSums A).foldl
      (combineStep ((generateAllSubsetSums B).insertionSort bySum) target)
      (0, [])).2.insertionSort (fun a b => a ≤ b))
    (hposA : ∀ v ∈ A, 0 < v) (hposB : ∀ v ∈ B, 0 < v) (ht : 0 < target) :
    result.Sorted (· ≤ ·) ∧ result <+~ (A ++ B) ∧ result.sum ≤ target ∧
      ∀ S : List Int, S <+ A ++ B → S.sum ≤ target → S.sum ≤ result.sum := by
  have hsort : ((generateAllSubsetSums B).insertionSort bySum).Pairwise bySum :=
    List.sorted_insertionSort bySum (generateAllSubsetSums B)
  have hperm : (generateAllSubsetSums B).insertionSort bySum ~ generateAllSubsetSums B :=
    List.perm_insertionSort bySum (generateAllSubsetSums B)
  have hmem : ∀ b ∈ (generateAllSubsetSums B).insertionSort bySum,
      b.sum = b.subset.sum ∧ b.subset <+ B :=
    fun b hb => generateAllSubsetSums_sound (hperm.mem_iff.mp hb)
  have hzero : (⟨0, []⟩ : SubsetSum) ∈ (generateAllSubsetSums B).insertionSort bySum :=
    hperm.mem_iff.mpr (zero_mem_generateAllSubsetSums B)
  obtain ⟨hfst, hle, SL, SR, hSL, hSR, hsnd⟩ :=
    foldl_combineStep_invariant ((generateAllSubsetSums B).insertionSort bySum) target A B
      hsort hmem hzero (generateAllSubsetSums A)
      (fun e he => generateAllSubsetSums_sound he)
      (0, []) ⟨rfl, le_of_lt ht, [], [], List.nil_sublist A, List.nil_sublist B, rfl⟩
  have hperm2 : result ~ ((generateAllSubsetSums A).foldl
      (combineStep ((generateAllSubsetSums B).insertionSort bySum) target) (0, [])).2 := by
    rw [hres]
    exact List.perm_insertionSort _ _
  have hsorted : result.Sorted (· ≤ ·) := by
    rw [hres]
    exact List.sorted_insertionSort (fun a b => a ≤ b) _
  have hsum2 : result.sum = ((generateAllSubsetSums A).foldl
      (combineStep ((generateAllSubsetSums B).insertionSort bySum) target) (0, [])).2.sum :=
    hperm2.sum_eq
  refine ⟨hsorted, ?_, ?_, ?_⟩
  · refine ⟨_, hperm2.symm, ?_⟩
    rw [hsnd]
    exact hSL.append hSR
  · rw [hsum2, ← hfst]
    exact hle
  · intro S hS hSt
    obtain ⟨SA, SB, rfl, hSA, hSB⟩ := List.sublist_append_iff.mp hS
    have hsum_split : (SA ++ SB).sum = SA.sum + SB.sum := List.sum_append
    have hSB0 : 0 ≤ SB.sum :=
      List.sum_nonneg fun v hv => le_of_lt (hposB v (hSB.subset hv))
    have hSAle : SA.sum ≤ target := by omega
    obtain ⟨mA, hmA, hmsA⟩ := exists_mask_of_sublist A SA hSA
    have heA : (⟨SA.sum, SA⟩ : SubsetSum) ∈ generateAllSubsetSums A :=
      mem_generateAllSubsetSums.mpr ⟨mA, hmA, by rw [hmsA]⟩
    obtain ⟨mB, hmB, hmsB⟩ := exists_mask_of_sublist B SB hSB
    have heB : (⟨SB.sum, SB⟩ : SubsetSum) ∈ (generateAllSubsetSums B).insertionSort bySum :=
      hperm.mem_iff.mpr (mem_generateAllSubsetSums.mpr ⟨mB, hmB, by rw [hmsB]⟩)
    have hSBq : (⟨SB.sum, SB⟩ : SubsetSum).sum ≤ target - SA.sum := by
      show SB.sum ≤ target - SA.sum
      omega
    obtain ⟨-, hble, hmax⟩ :=
      (findBestSum_spec ((generateAllSubsetSums B).insertionSort bySum)
        (target - SA.sum) hsort).2.1 ⟨⟨SB.sum, SB⟩, heB, hSBq⟩
    have hSBle : SB.sum ≤ (findBestSum ((generateAllSubsetSums B).insertionSort bySum)
        (target - SA.sum)).sum :=
      hmax ⟨SB.sum, SB⟩ heB hSBq
    have hred : (⟨SA.sum, SA⟩ : SubsetSum).sum = SA.sum := rfl
    have htot := foldl_combineStep_total_le
      ((generateAllSubsetSums B).insertionSort bySum) target
      (generateAllSubsetSums A) (0, []) ⟨SA.sum, SA⟩ heA
      (le_of_eq_of_le hred hSAle)
      (by rw [hred]; omega)
    rw [hred] at htot
    rw [hsum_split, hsum2, ← hfst]
    omega

-- Full specification of `findOptimalSubset` for valid inputs (positive
-- target, positive candidates): the result is sorted ascending, is a
-- sub-multiset of the candidates, fits under the target, and its sum
-- dominates the sum of every fitting index-subset of the candidates.
theorem findOptimalSubset_spec (numbers : List Int) (target : Int)
    (hpos : ∀ v ∈ numbers, 0 < v) (ht : 0 < target) :
    (findOptimalSubset numbers target).Sorted (· ≤ ·) ∧
    findOptimalSubset numbers target <+~ numbers ∧
    (findOptimalSubset numbers target).sum ≤ target ∧
    ∀ S : List Int, S <+ numbers → S.sum ≤ target →
      S.sum ≤ (findOptimalSubset numbers target).sum := by
  match numbers with
  | [] =>
    refine ⟨List.sorted_nil, List.nil_subperm, by simpa using le_of_lt ht, ?_⟩
    intro S hS hSt
    rw [List.sublist_nil] at hS
    simp [hS, findOptimalSubset]
  | [x] =>
    have hx0 : 0 < x := hpos x (List.mem_singleton_self x)
    by_cases hx : x ≤ target
    · have hfx : findOptimalSubset [x] target = [x] := by
        rw [findOptimalSubset, if_pos hx]
      rw [hfx]
      refine ⟨List.sorted_singleton x, (List.Sublist.refl [x]).subperm, by simpa using hx, ?_⟩
      intro S hS hSt
      cases hS with
      | cons _ h =>
        rw [List.sublist_nil] at h
        simp [h]
        omega
      | cons₂ _ h =>
        rw [List.sublist_nil] at h
        simp [h]
    · have hfx : findOptimalSubset [x] target = [] := by
        rw [findOptimalSubset, if_neg hx]
      rw [hfx]
      refine ⟨List.sorted_nil, List.nil_subperm, by simpa using le_of_lt ht, ?_⟩
      intro S hS hSt
      cases hS with
      | cons _ h =>
        rw [List.sublist_nil] at h
        simp [h]
      | cons₂ _ h =>
        rw [List.sublist_nil] at h
        subst h
        simp at hSt
        omega
  | x :: y :: rest =>
    have hAB : (x :: y :: rest).take ((x :: y :: rest).length / 2)
        ++ (x :: y :: rest).drop ((x :: y :: rest).length / 2) = x :: y :: rest :=
      List.take_append_drop _ _
    have hspec := mitm_pipeline_spec
      ((x :: y :: rest).take ((x :: y :: rest).length / 2))
      ((x :: y :: rest).drop ((x :: y :: rest).length / 2))
      target (findOptimalSubset (x :: y :: rest) target) rfl
      (fun v hv => hpos v (List.take_subset _ _ hv))
      (fun v hv => hpos v (List.drop_subset _ _ hv))
      ht
    rw [hAB] at hspec
    exact hspec

-- The source recomputes the result sum with `reduce((sum, num) => sum + num, 0)`.
theorem foldl_add_eq_sum : ∀ (l : List Int) (a : Int),
    l.foldl (fun sum num => sum + num) a = a + l.sum := by
  intro l
  induction l with
  | nil => intro a; simp
  | cons x l ih =>
    intro a
    rw [List.foldl_cons, ih, List.sum_cons]
    ring

theorem optimizeRow_selectedNumbers (row : CSVRow) :
    (optimizeRow row).selectedNumbers = findOptimalSubset row.smallNumbers row.bigNumber := by
  by_cases h : row.smallNumbers.length = 0
  · rw [List.length_eq_zero] at h
    simp [optimizeRow, h, findOptimalSubset]
  · simp [optimizeRow, h]

theorem optimizeRow_sum (row : CSVRow) :
    (optimizeRow row).sum = (findOptimalSubset row.smallNumbers row.bigNumber).sum := by
  by_cases h : row.smallNumbers.length = 0
  · rw [List.length_eq_zero] at h
    simp [optimizeRow, h, findOptimalSubset]
  · simp [optimizeRow, h, foldl_add_eq_sum]

/-- C1: for every valid row (positive target, at most 12 positive
candidates), `optimizeRow` is optimal: its achieved sum is the greatest
element of the set of sums of sub-multisets of the candidates that do not
exceed the target (so no sub-multiset has a sum in the open interval
between the achieved sum and the target). -/
theorem optimizeRow_optimal (row : CSVRow)
    (ht : 0 < row.bigNumber) (hlen : row.smallNumbers.length ≤ 12)
    (hpos : ∀ v ∈ row.smallNumbers, 0 < v) :
    IsGreatest {s : Int | ∃ S : List Int,
      S <+~ row.smallNumbers ∧ S.sum = s ∧ s ≤ row.bigNumber} (optimizeRow row).sum := by
  obtain ⟨hsorted, hsub, hle, hopt⟩ :=
    findOptimalSubset_spec row.smallNumbers row.bigNumber hpos ht
  constructor
  · exact ⟨findOptimalSubset row.smallNumbers row.bigNumber, hsub,
      (optimizeRow_sum row).symm, by rw [optimizeRow_sum row]; exact hle⟩
  · rintro s ⟨S, hS, rfl, hs⟩
    obtain ⟨S', hS'perm, hS'sub⟩ := hS
    rw [optimizeRow_sum row]
    calc S.sum = S'.sum := hS'perm.sum_eq.symm
    _ ≤ _ := hopt S' hS'sub (by rw [hS'perm.sum_eq]; exact hs)

/-- C1 witness: the theorem applied to the concrete row
`target = 10, candidates = [3, 3, 4, 4, 5]`, where the optimizer finds 10. -/
theorem optimizeRow_optimal_witness :
    IsGreatest {s : Int | ∃ S : List Int,
        S <+~ [3, 3, 4, 4, 5] ∧ S.sum = s ∧ s ≤ 10}
      (optimizeRow ⟨10, [3, 3, 4, 4, 5]⟩).sum ∧
    (optimizeRow ⟨10, [3, 3, 4, 4, 5]⟩).sum = 10 :=
  ⟨optimizeRow_optimal ⟨10, [3, 3, 4, 4, 5]⟩ (by decide) (by decide) (by decide), by decide⟩

/-- C2: for every valid row, the result is a well-formed feasible
selection: the sum fits under the target, equals the sum of the selected
values, the selection is sorted ascending, and it is a sub-multiset of
the candidates (per-value counts never exceed those in the row). -/
theorem optimizeRow_wellFormed (row : CSVRow)
    (ht : 0 < row.bigNumber) (hlen : row.smallNumbers.length ≤ 12)
    (hpos : ∀ v ∈ row.smallNumbers, 0 < v) :
    (optimizeRow row).sum ≤ row.bigNumber ∧
    (optimizeRow row).sum = (optimizeRow row).selectedNumbers.sum ∧
    (optimizeRow row).selectedNumbers.Sorted (· ≤ ·) ∧
    ∀ v : Int, (optimizeRow row).selectedNumbers.count v ≤ row.smallNumbers.count v := by
  obtain ⟨hsorted, hsub, hle, hopt⟩ :=
    findOptimalSubset_spec row.smallNumbers row.bigNumber hpos ht
  refine ⟨?_, ?_, ?_, ?_⟩
  · rw [optimizeRow_sum row]
    exact hle
  · rw [optimizeRow_sum row, optimizeRow_selectedNumbers row]
  · rw [optimizeRow_selectedNumbers row]
    exact hsorted
  · intro v
    rw [optimizeRow_selectedNumbers row]
    exact hsub.count_le v

/-- C2 witness: the theorem applied to `target = 10,
candidates = [3, 3, 4, 4, 5]`, whose selection is `[3, 3, 4]`. -/
theorem optimizeRow_wellFormed_witness :
    ((optimizeRow ⟨10, [3, 3, 4, 4, 5]⟩).sum ≤ 10 ∧
      (optimizeRow ⟨10, [3, 3, 4, 4, 5]⟩).sum =
        (optimizeRow ⟨10, [3, 3, 4, 4, 5]⟩).selectedNumbers.sum ∧
      (optimizeRow ⟨10, [3, 3, 4, 4, 5]⟩).selectedNumbers.Sorted (· ≤ ·) ∧
      ∀ v : Int, (optimizeRow ⟨10, [3, 3, 4, 4, 5]⟩).selectedNumbers.count v ≤
        ([3, 3, 4, 4, 5] : List Int).count v) ∧
    (optimizeRow ⟨10, [3, 3, 4, 4, 5]⟩).selectedNumbers = [3, 3, 4] :=
  ⟨optimizeRow_wellFormed ⟨10, [3, 3, 4, 4, 5]⟩ (by decide) (by decide) (by decide), by decide⟩

/-- C8: `validateRow` returns `true` exactly when the target is strictly
positive, there are at most 12 candidates, and every candidate is
strictly positive; it is a pure predicate of the row's value and leaves
the row untouched. -/
theorem validateRow_spec (row : CSVRow) :
    validateRow row = true ↔
      (0 < row.bigNumber ∧ row.smallNumbers.length ≤ 12 ∧
        ∀ v ∈ row.smallNumbers, 0 < v) :=
  validateRow_iff row

/-- C4: `generateAllSubsetSums` enumerates exactly the `2 ^ k` inclusion
masks over positional indices, in mask order, including the empty
selection `⟨0, []⟩`; each entry's sum is the sum of its subset, each
subset is an index-subset (sublist) of the input, the per-mask subset is
exactly what the source's bit-test loop pushes, and every index-subset —
so in particular both copies of a duplicated value, never collapsed — is
reached by some mask. -/
theorem generateAllSubsetSums_spec (numbers : List Int) :
    (generateAllSubsetSums numbers).length = 2 ^ numbers.length ∧
    (∀ mask : Nat, mask < 2 ^ numbers.length →
      (generateAllSubsetSums numbers)[mask]? =
        some ⟨(maskSubset numbers mask).sum, maskSubset numbers mask⟩) ∧
    (∀ mask : Nat, maskSubset numbers mask = maskSubsetLoop numbers mask) ∧
    (⟨0, []⟩ : SubsetSum) ∈ generateAllSubsetSums numbers ∧
    (∀ e ∈ generateAllSubsetSums numbers, e.sum = e.subset.sum ∧ e.subset <+ numbers) ∧
    (∀ S : List Int, S <+ numbers →
      ∃ mask, mask < 2 ^ numbers.length ∧ maskSubset numbers mask = S) := by
  refine ⟨by simp [generateAllSubsetSums], fun mask hm => ?_,
    maskSubset_eq_maskSubsetLoop numbers,
    zero_mem_generateAllSubsetSums numbers,
    fun e he => generateAllSubsetSums_sound he,
    exists_mask_of_sublist numbers⟩
  simp [generateAllSubsetSums, List.getElem?_map, List.getElem?_range hm]

/-- C4 witness: for the duplicated input `[3, 3]` there are `2 ^ 2`
entries; mask `3` selects both copies, and the single value `[3]` is
reached by a mask (twice, in fact — once per index). -/
theorem generateAllSubsetSums_spec_witness :
    (generateAllSubsetSums [3, 3])[3]? = some ⟨6, [3, 3]⟩ ∧
    ∃ mask, mask < 2 ^ ([3, 3] : List Int).length ∧ maskSubset [3, 3] mask = [3] := by
  constructor
  · exact ((generateAllSubsetSums_spec [3, 3]).2.1 3 (by decide)).trans (by decide)
  · exact (generateAllSubsetSums_spec [3, 3]).2.2.2.2.2 [3] (by decide)

/-- C3 counterexample: on the sorted singleton list `[⟨5, [5]⟩]` with
ceiling `3`, no pair has sum at most the ceiling, yet `findBestSum`
returns `⟨5, [5]⟩` — the first element, whose sum even exceeds the
ceiling — not the zero/empty pair the claim requires. -/
theorem findBestSum_counterexample :
    List.Pairwise bySum [⟨5, [5]⟩] ∧
    (∀ p ∈ ([⟨5, [5]⟩] : List SubsetSum), ¬ p.sum ≤ (3 : Int)) ∧
    findBestSum [⟨5, [5]⟩] 3 = ⟨5, [5]⟩ ∧
    findBestSum [⟨5, [5]⟩] 3 ≠ ⟨0, []⟩ := by decide

/-- C3 (amended): for every list sorted ascending by sum and every
ceiling, `findBestSum` returns the zero/empty pair when the list is
empty; when some pair has sum at most the ceiling it returns a pair of
the list with the largest such sum; but when the list is nonempty and no
pair qualifies (for instance with a negative ceiling) it returns the
FIRST element of the list — the zero pair only under the optimizer's
actual usage, where the sorted list starts with the empty selection. -/
theorem findBestSum_amended (l : List SubsetSum) (t : Int) (hs : l.Pairwise bySum) :
    (l = [] → findBestSum l t = ⟨0, []⟩) ∧
    ((∃ p ∈ l, p.sum ≤ t) →
      findBestSum l t ∈ l ∧ (findBestSum l t).sum ≤ t ∧
        ∀ q ∈ l, q.sum ≤ t → q.sum ≤ (findBestSum l t).sum) ∧
    ((l ≠ [] ∧ ∀ p ∈ l, t < p.sum) → findBestSum l t = l.headD ⟨0, []⟩) :=
  findBestSum_spec l t hs

/-- C3 witness: the amended theorem applied to a concrete sorted list
with ceiling `3`, where the best fitting pair is `⟨2, [2]⟩`. -/
theorem findBestSum_amended_witness :
    findBestSum [⟨0, []⟩, ⟨2, [2]⟩, ⟨5, [5]⟩] 3 ∈
      ([⟨0, []⟩, ⟨2, [2]⟩, ⟨5, [5]⟩] : List SubsetSum) ∧
    (findBestSum [⟨0, []⟩, ⟨2, [2]⟩, ⟨5, [5]⟩] 3).sum ≤ 3 ∧
    ∀ q ∈ ([⟨0, []⟩, ⟨2, [2]⟩, ⟨5, [5]⟩] : List SubsetSum), q.sum ≤ 3 →
      q.sum ≤ (findBestSum [⟨0, []⟩, ⟨2, [2]⟩, ⟨5, [5]⟩] 3).sum :=
  (findBestSum_amended [⟨0, []⟩, ⟨2, [2]⟩, ⟨5, [5]⟩] 3 (by decide)).2.1
    ⟨⟨2, [2]⟩, by decide, by decide⟩

-- A step whose total is not a strict, feasible improvement keeps the state.
theorem combineStep_keeps (rs : List SubsetSum) (t : Int) (st : Int × List Int)
    (e : SubsetSum)
    (h : e.sum + (findBestSum rs (t - e.sum)).sum ≤ st.1 ∨
      t < e.sum + (findBestSum rs (t - e.sum)).sum) :
    combineStep rs t st e = st := by
  by_cases h1 : e.sum > t
  · simp [combineStep, h1]
  · have hna : ¬(e.sum + (findBestSum rs (t - e.sum)).sum ≤ t ∧
        e.sum + (findBestSum rs (t - e.sum)).sum > st.1) := by
      rcases h with h | h
      · exact fun hc => absurd h (not_le_of_gt hc.2)
      · exact fun hc => absurd hc.1 (not_le_of_gt h)
    simp only [combineStep, if_neg h1, if_neg hna]

-- A whole run of such steps keeps the state.
theorem foldl_combineStep_keeps (rs : List SubsetSum) (t : Int) :
    ∀ (L : List SubsetSum) (st : Int × List Int),
      (∀ e ∈ L, e.sum + (findBestSum rs (t - e.sum)).sum ≤ st.1 ∨
        t < e.sum + (findBestSum rs (t - e.sum)).sum) →
      L.foldl (combineStep rs t) st = st := by
  intro L
  induction L with
  | nil => intro st _; rfl
  | cons e L ih =>
    intro st hL
    rw [List.foldl_cons, combineStep_keeps rs t st e (hL e (List.mem_cons_self e L))]
    exact ih st fun b hb => hL b (List.mem_cons_of_mem e hb)

/-- C6: the combination loop updates its best candidate only on a
strictly greater feasible total, so the first left entry attaining the
maximal total determines the returned combination: if `e` strictly
improves on the incoming state and every later entry's total is either
no greater (in particular, an exact tie) or infeasible, the loop ends in
exactly the state installed by `e`. -/
theorem combineStep_first_max_wins (rs : List SubsetSum) (t : Int)
    (L : List SubsetSum) (st : Int × List Int) (e : SubsetSum)
    (h1 : e.sum ≤ t)
    (h2 : e.sum + (findBestSum rs (t - e.sum)).sum ≤ t)
    (h3 : st.1 < e.sum + (findBestSum rs (t - e.sum)).sum)
    (h4 : ∀ b ∈ L, b.sum + (findBestSum rs (t - b.sum)).sum ≤
        e.sum + (findBestSum rs (t - e.sum)).sum ∨
      t < b.sum + (findBestSum rs (t - b.sum)).sum) :
    (e :: L).foldl (combineStep rs t) st =
      (e.sum + (findBestSum rs (t - e.sum)).sum,
        e.subset ++ (findBestSum rs (t - e.sum)).subset) := by
  rw [List.foldl_cons]
  have hstep : combineStep rs t st e =
      (e.sum + (findBestSum rs (t - e.sum)).sum,
        e.subset ++ (findBestSum rs (t - e.sum)).subset) := by
    simp only [combineStep, if_neg (not_lt.mpr h1), if_pos (And.intro h2 h3)]
  rw [hstep]
  exact foldl_combineStep_keeps rs t L _ fun b hb => h4 b hb

/-- C6 witness: over `rs = [⟨0, []⟩]` with target `5`, the left entry
`⟨5, [5]⟩` installs total `5`, and the later entry `⟨5, [2, 3]⟩` with the
identical total does not replace it. -/
theorem combineStep_first_max_wins_witness :
    ([⟨5, [5]⟩, ⟨5, [2, 3]⟩] : List SubsetSum).foldl
      (combineStep [⟨0, []⟩] 5) (0, []) = ((5 : Int), ([5] : List Int)) :=
  (combineStep_first_max_wins [⟨0, []⟩] 5 [⟨5, [2, 3]⟩] (0, []) ⟨5, [5]⟩
    (by decide) (by decide) (by decide) (by decide)).trans (by decide)

/-- C7 counterexample: the row `target = -1, candidates = [2]` violates
the input invariants, yet `optimizeRow` signals nothing and returns an
ordinary optimization result — the source has no
`InvariantViolation`/`InvalidInput` conditions at all. -/
theorem optimizeRow_counterexample :
    validateRow ⟨-1, [2]⟩ = false ∧
    optimizeRow ⟨-1, [2]⟩ = ⟨[], 0, ⟨-1, [2]⟩⟩ := by decide

/-- C7 (amended): `optimizeRow` performs no fail-fast validation: for
every row violating the input invariants it still completes normally and
returns an optimization result (carrying the row itself); the violation
is only observable through the separate `validateRow` predicate, which
returns `false` on such rows. -/
theorem optimizeRow_no_failfast (row : CSVRow)
    (hbad : ¬(0 < row.bigNumber ∧ row.smallNumbers.length ≤ 12 ∧
      ∀ v ∈ row.smallNumbers, 0 < v)) :
    (optimizeRow row).originalRow = row ∧ validateRow row = false := by
  refine ⟨optimizeRow_originalRow row, ?_⟩
  cases hv : validateRow row with
  | false => rfl
  | true => exact absurd ((validateRow_iff row).mp hv) hbad

/-- C7 witness: the amended theorem applied to the invalid row
`target = -1, candidates = [2]`. -/
theorem optimizeRow_no_failfast_witness :
    (optimizeRow ⟨-1, [2]⟩).originalRow = ⟨-1, [2]⟩ ∧
    validateRow ⟨-1, [2]⟩ = false :=
  optimizeRow_no_failfast ⟨-1, [2]⟩ (by decide)

-- Termination and in-bounds access of the binary search from any entry
-- state with enough fuel, with no sortedness assumption.
theorem bsLoop_total (l : List SubsetSum) (t : Int) :
    ∀ (fuel left : Nat) (right : Int) (best : Nat),
      (right + 1 - left).toNat < fuel →
      right ≤ (l.length : Int) - 1 →
      best < l.length →
      ∃ idx, bsLoop l t fuel left right best = some idx ∧ idx < l.length := by
  intro fuel
  induction fuel with
  | zero =>
    intro left right best hf _ _
    omega
  | succ fuel ih =>
    intro left right best hf h1 hb
    rw [bsLoop]
    by_cases hlr : (left : Int) ≤ right
    · rw [if_pos hlr]
      have hmid_lb : (left : Int) ≤ ((left : Int) + right) / 2 := by omega
      have hmid_ub : ((left : Int) + right) / 2 ≤ right := by omega
      have hmid_lt : (((left : Int) + right) / 2).toNat < l.length := by omega
      have hbb : l[(((left : Int) + right) / 2).toNat]? =
          some (l.getD (((left : Int) + right) / 2).toNat ⟨0, []⟩) := by
        simp [List.getD_eq_getElem?_getD, List.getElem?_eq_getElem hmid_lt]
      simp only [hbb]
      by_cases hpt : (l.getD (((left : Int) + right) / 2).toNat ⟨0, []⟩).sum ≤ t
      · rw [if_pos hpt]
        exact ih _ _ _ (by omega) h1 hmid_lt
      · rw [if_neg hpt]
        exact ih _ _ _ (by omega) (by omega) hb
    · rw [if_neg hlr]
      exact ⟨best, rfl, hb⟩

/-- C9: `optimizeRow` is total — for every row, valid or not, it returns
a result (carrying the row) rather than raising an error; and the binary
search underlying `findBestSum`, run from its entry state on any
nonempty list, terminates within its fuel and only ever reads indices
inside `[0, length - 1]`, ending on an in-range index (the empty-list
case being separately guarded in `findBestSum`). -/
theorem optimizeRow_total_safe :
    (∀ row : CSVRow, (optimizeRow row).originalRow = row) ∧
    (∀ (l : List SubsetSum) (t : Int), l ≠ [] →
      ∃ idx, bsLoop l t (l.length + 1) 0 ((l.length : Int) - 1) 0 = some idx ∧
        idx < l.length) := by
  refine ⟨optimizeRow_originalRow, fun l t hne => ?_⟩
  exact bsLoop_total l t (l.length + 1) 0 ((l.length : Int) - 1) 0
    (by omega) (by omega) (List.length_pos.mpr hne)

/-- C9 witness: the theorem applied to a concrete row and to a concrete
two-element sorted-sums list. -/
theorem optimizeRow_total_safe_witness :
    (optimizeRow ⟨7, [9, 2]⟩).originalRow = ⟨7, [9, 2]⟩ ∧
    ∃ idx, bsLoop [⟨0, []⟩, ⟨4, [4]⟩] 3 3 0 1 0 = some idx ∧ idx < 2 :=
  ⟨optimizeRow_total_safe.1 ⟨7, [9, 2]⟩,
    optimizeRow_total_safe.2 [⟨0, []⟩, ⟨4, [4]⟩] 3 (by decide)⟩
